import Mathlib

/-
Verification of the py-caskdb core: the record codec (src/format.py) and the
log-structured storage engine (src/disk_store.py), shallowly embedded.

Modelling conventions.
A Python `str` is a list of Unicode code points; a Python `bytes` value is a
list of naturals below 256.  `struct.pack("III", ...)` uses the platform's
native layout, i.e. three little-endian unsigned 32-bit fields on the
platforms the repository targets.  `struct.pack` and `struct.unpack` raise
`struct.error` on out-of-range values or on a size mismatch, and
`str.encode` / `bytes.decode` raise on invalid data, so every fallible
operation is embedded as an `Option`-valued function, `none` standing for
the Python call raising an exception.
-/

/-- A Python `str`: a list of Unicode code points. -/
abbrev PyStr := List Nat

/-- One code point encoded to UTF-8 bytes, as `str.encode("utf-8")` does for
a single character; `none` models `UnicodeEncodeError` (lone surrogates and
out-of-range values). -/
def utf8EncodeChar (c : Nat) : Option (List Nat) :=
  if c < 0x80 then some [c]
  else if c < 0x800 then some [0xC0 + c / 0x40, 0x80 + c % 0x40]
  else if c < 0x10000 then
    if 0xD800 ≤ c ∧ c < 0xE000 then none
    else some [0xE0 + c / 0x1000, 0x80 + c / 0x40 % 0x40, 0x80 + c % 0x40]
  else if c < 0x110000 then
    some [0xF0 + c / 0x40000, 0x80 + c / 0x1000 % 0x40, 0x80 + c / 0x40 % 0x40, 0x80 + c % 0x40]
  else none

/-- `s.encode("utf-8")` on a whole Python string. -/
def utf8Encode : PyStr → Option (List Nat)
  | [] => some []
  | c :: cs =>
    match utf8EncodeChar c, utf8Encode cs with
    | some b, some bs => some (b ++ bs)
    | _, _ => none

/-- Whether a byte is a UTF-8 continuation byte (10xxxxxx). -/
def isCont (b : Nat) : Bool := decide (0x80 ≤ b) && decide (b < 0xC0)

/-- First-continuation-byte restriction for 3-byte sequences: rules out
overlong forms (leading byte 0xE0) and surrogates (leading byte 0xED). -/
def ok3 (b b1 : Nat) : Bool :=
  (b != 0xE0 || decide (0xA0 ≤ b1)) && (b != 0xED || decide (b1 < 0xA0))

/-- First-continuation-byte restriction for 4-byte sequences: rules out
overlong forms (leading byte 0xF0) and values above 0x10FFFF (0xF4). -/
def ok4 (b b1 : Nat) : Bool :=
  (b != 0xF0 || decide (0x90 ≤ b1)) && (b != 0xF4 || decide (b1 < 0x90))

/-- `b.decode("utf-8")`: strict UTF-8 decoding of a byte list into code
points; `none` models `UnicodeDecodeError` (truncated sequences, stray
continuation bytes, overlong forms, surrogates, values above 0x10FFFF). -/
def utf8Decode : List Nat → Option PyStr
  | [] => some []
  | [b] =>
    if b < 0x80 then (utf8Decode []).map (fun cs => b :: cs) else none
  | [b, b1] =>
    if b < 0x80 then (utf8Decode [b1]).map (fun cs => b :: cs)
    else if b < 0xC2 then none
    else if b < 0xE0 then
      if isCont b1 then
        (utf8Decode []).map (fun cs => ((b - 0xC0) * 0x40 + (b1 - 0x80)) :: cs)
      else none
    else none
  | [b, b1, b2] =>
    if b < 0x80 then (utf8Decode [b1, b2]).map (fun cs => b :: cs)
    else if b < 0xC2 then none
    else if b < 0xE0 then
      if isCont b1 then
        (utf8Decode [b2]).map (fun cs => ((b - 0xC0) * 0x40 + (b1 - 0x80)) :: cs)
      else none
    else if b < 0xF0 then
      if isCont b1 && isCont b2 && ok3 b b1 then
        (utf8Decode []).map
          (fun cs => ((b - 0xE0) * 0x1000 + (b1 - 0x80) * 0x40 + (b2 - 0x80)) :: cs)
      else none
    else none
  | b :: b1 :: b2 :: b3 :: bs3 =>
    if b < 0x80 then (utf8Decode (b1 :: b2 :: b3 :: bs3)).map (fun cs => b :: cs)
    else if b < 0xC2 then none
    else if b < 0xE0 then
      if isCont b1 then
        (utf8Decode (b2 :: b3 :: bs3)).map (fun cs => ((b - 0xC0) * 0x40 + (b1 - 0x80)) :: cs)
      else none
    else if b < 0xF0 then
      if isCont b1 && isCont b2 && ok3 b b1 then
        (utf8Decode (b3 :: bs3)).map
          (fun cs => ((b - 0xE0) * 0x1000 + (b1 - 0x80) * 0x40 + (b2 - 0x80)) :: cs)
      else none
    else if b < 0xF5 then
      if isCont b1 && isCont b2 && isCont b3 && ok4 b b1 then
        (utf8Decode bs3).map
          (fun cs =>
            ((b - 0xF0) * 0x40000 + (b1 - 0x80) * 0x1000 + (b2 - 0x80) * 0x40 + (b3 - 0x80)) :: cs)
      else none
    else none

/-- Little-endian byte list of an unsigned 32-bit value. -/
def le32 (n : Nat) : List Nat :=
  [n % 256, n / 256 % 256, n / 65536 % 256, n / 16777216 % 256]

/-- Read four little-endian bytes of `data` starting at index `i`. -/
def read32At (data : List Nat) (i : Nat) : Nat :=
  data.getD i 0 + data.getD (i + 1) 0 * 256 + data.getD (i + 2) 0 * 65536
    + data.getD (i + 3) 0 * 16777216

/-- `struct.pack` with format `"Ns"`: truncate or zero-pad the byte string to
exactly `n` bytes. -/
def pack_s (n : Nat) (bs : List Nat) : List Nat :=
  bs.take n ++ List.replicate (n - bs.length) 0

/-- Source: src/format.py, `encode_header`.  `struct.pack("III", ...)` packs
three unsigned 32-bit fields and raises `struct.error` when a value does not
fit. -/
def encode_header (timestamp key_size value_size : Nat) : Option (List Nat) :=
  if timestamp < 4294967296 ∧ key_size < 4294967296 ∧ value_size < 4294967296 then
    some (le32 timestamp ++ le32 key_size ++ le32 value_size)
  else none

/-- Source: src/format.py, `decode_header`.  `struct.unpack("III", data)`
raises `struct.error` unless `data` is exactly 12 bytes long. -/
def decode_header (data : List Nat) : Option (Nat × Nat × Nat) :=
  if data.length = 12 then some (read32At data 0, read32At data 4, read32At data 8)
  else none

/-- Source: src/format.py, `encode_kv`.  The sizes are Python `len` of the
strings, i.e. CHARACTER counts, while the payload packed by
`struct.pack(f"{key_size}s{value_size}s", ...)` is the UTF-8 byte strings
truncated or zero-padded to those counts. -/
def encode_kv (timestamp : Nat) (key value : PyStr) : Option (Nat × List Nat) :=
  match encode_header timestamp key.length value.length, utf8Encode key, utf8Encode value with
  | some header, some kb, some vb =>
    some (key.length + value.length, header ++ pack_s key.length kb ++ pack_s value.length vb)
  | _, _, _ => none

/-- Source: src/format.py, `decode_kv`.  `data[:12]` goes to `decode_header`;
`struct.unpack(f"{key_size}s{value_size}s", data[12:])` raises unless
`data[12:]` is exactly `key_size + value_size` bytes, and each slice is then
decoded as UTF-8 text. -/
def decode_kv (data : List Nat) : Option (Nat × PyStr × PyStr) :=
  match decode_header (data.take 12) with
  | some (timestamp, key_size, value_size) =>
    if (data.drop 12).length = key_size + value_size then
      match utf8Decode ((data.drop 12).take key_size),
            utf8Decode ((data.drop 12).drop key_size) with
      | some key, some value => some (timestamp, key, value)
      | _, _ => none
    else none
  | none => none

/-- An abstract on-disk record: a timestamp with raw key and value byte
strings.  `Record.bytes` lays it out exactly as the log file stores it. -/
structure Record where
  t : Nat
  kb : List Nat
  vb : List Nat
deriving DecidableEq

/-- The serialized form: 12-byte header declaring the payload byte lengths,
then the key bytes, then the value bytes. -/
def Record.bytes (r : Record) : List Nat :=
  le32 r.t ++ le32 r.kb.length ++ le32 r.vb.length ++ r.kb ++ r.vb

/-- The header fields of the record fit in 32 bits. -/
def SizesOk (r : Record) : Prop :=
  r.t < 4294967296 ∧ r.kb.length < 4294967296 ∧ r.vb.length < 4294967296

instance (r : Record) : Decidable (SizesOk r) := by
  unfold SizesOk
  infer_instance

/-- A record whose sizes fit 32 bits and whose payload bytes are plain ASCII
(so its decoded character counts equal its byte counts). -/
def GoodRec (r : Record) : Prop :=
  SizesOk r ∧ (∀ b ∈ r.kb, b < 128) ∧ (∀ b ∈ r.vb, b < 128)

instance (r : Record) : Decidable (GoodRec r) := by
  unfold GoodRec
  infer_instance

/-- Concatenated serialized records: the content of a log file. -/
def fileOf : List Record → List Nat
  | [] => []
  | r :: rest => r.bytes ++ fileOf rest

theorem le32_length (n : Nat) : (le32 n).length = 4 := rfl

theorem Record.bytes_length (r : Record) :
    r.bytes.length = 12 + r.kb.length + r.vb.length := by
  simp [Record.bytes, le32]; omega

theorem fileOf_append (a b : List Record) : fileOf (a ++ b) = fileOf a ++ fileOf b := by
  induction a with
  | nil => simp [fileOf]
  | cons r rest ih => simp [fileOf, ih]

theorem take_append_exact {α : Type} {l₁ : List α} (l₂ : List α) {n : Nat}
    (h : l₁.length = n) : (l₁ ++ l₂).take n = l₁ := by
  subst h
  induction l₁ with
  | nil => simp
  | cons a t ih => simp [ih]

theorem drop_append_exact {α : Type} {l₁ : List α} (l₂ : List α) {n : Nat}
    (h : l₁.length = n) : (l₁ ++ l₂).drop n = l₂ := by
  subst h
  induction l₁ with
  | nil => simp
  | cons a t ih => simp [ih]

theorem pack_s_exact {n : Nat} {bs : List Nat} (h : bs.length = n) : pack_s n bs = bs := by
  simp [pack_s, h]

theorem pack_s_length (n : Nat) (bs : List Nat) : (pack_s n bs).length = n := by
  simp [pack_s]; omega

theorem utf8Encode_ascii {s : PyStr} (h : ∀ c ∈ s, c < 128) : utf8Encode s = some s := by
  induction s with
  | nil => rfl
  | cons c cs ih =>
    have hc : c < 128 := h c (by simp)
    have ih' := ih (fun x hx => h x (by simp [hx]))
    simp [utf8Encode, utf8EncodeChar, hc, ih']

theorem utf8Decode_ascii {bs : List Nat} (h : ∀ b ∈ bs, b < 128) : utf8Decode bs = some bs := by
  induction bs with
  | nil => rfl
  | cons b t ih =>
    have hb : b < 128 := h b (by simp)
    have ih' := ih (fun x hx => h x (by simp [hx]))
    rcases t with _ | ⟨b1, _ | ⟨b2, _ | ⟨b3, bs3⟩⟩⟩ <;>
      · rw [utf8Decode.eq_def]
        simp only []
        rw [if_pos (show b < 0x80 by omega), ih']
        rfl

theorem utf8Decode_length_le :
    ∀ (bs : List Nat) (cs : PyStr), utf8Decode bs = some cs → cs.length ≤ bs.length
  | [], cs, h => by
    simp [utf8Decode] at h
    simp [← h]
  | [b], cs, h => by
    rw [utf8Decode.eq_def] at h
    simp only [] at h
    split at h
    · rcases Option.map_eq_some'.mp h with ⟨cs', h1, rfl⟩
      have := utf8Decode_length_le [] cs' h1
      simp_all
    · cases h
  | [b, b1], cs, h => by
    rw [utf8Decode.eq_def] at h
    simp only [] at h
    split at h
    · rcases Option.map_eq_some'.mp h with ⟨cs', h1, rfl⟩
      have := utf8Decode_length_le [b1] cs' h1
      simp_all <;> omega
    · split at h
      · cases h
      · split at h
        · split at h
          · rcases Option.map_eq_some'.mp h with ⟨cs', h1, rfl⟩
            have := utf8Decode_length_le [] cs' h1
            simp_all
          · cases h
        · cases h
  | [b, b1, b2], cs, h => by
    rw [utf8Decode.eq_def] at h
    simp only [] at h
    split at h
    · rcases Option.map_eq_some'.mp h with ⟨cs', h1, rfl⟩
      have := utf8Decode_length_le [b1, b2] cs' h1
      simp_all <;> omega
    · split at h
      · cases h
      · split at h
        · split at h
          · rcases Option.map_eq_some'.mp h with ⟨cs', h1, rfl⟩
            have := utf8Decode_length_le [b2] cs' h1
            simp_all <;> omega
          · cases h
        · split at h
          · split at h
            · rcases Option.map_eq_some'.mp h with ⟨cs', h1, rfl⟩
              have := utf8Decode_length_le [] cs' h1
              simp_all
            · cases h
          · cases h
  | b :: b1 :: b2 :: b3 :: bs3, cs, h => by
    rw [utf8Decode.eq_def] at h
    simp only [] at h
    split at h
    · rcases Option.map_eq_some'.mp h with ⟨cs', h1, rfl⟩
      have := utf8Decode_length_le (b1 :: b2 :: b3 :: bs3) cs' h1
      simp_all <;> omega
    · split at h
      · cases h
      · split at h
        · split at h
          · rcases Option.map_eq_some'.mp h with ⟨cs', h1, rfl⟩
            have := utf8Decode_length_le (b2 :: b3 :: bs3) cs' h1
            simp_all <;> omega
          · cases h
        · split at h
          · split at h
            · rcases Option.map_eq_some'.mp h with ⟨cs', h1, rfl⟩
              have := utf8Decode_length_le (b3 :: bs3) cs' h1
              simp_all <;> omega
            · cases h
          · split at h
            · split at h
              · rcases Option.map_eq_some'.mp h with ⟨cs', h1, rfl⟩
                have := utf8Decode_length_le bs3 cs' h1
                simp_all <;> omega
              · cases h
            · cases h

theorem decode_header_headerBytes {t ks vs : Nat}
    (ht : t < 4294967296) (hk : ks < 4294967296) (hv : vs < 4294967296) :
    decode_header (le32 t ++ le32 ks ++ le32 vs) = some (t, ks, vs) := by
  simp only [decode_header, le32, read32At]
  norm_num [List.getD]
  refine ⟨?_, ?_, ?_⟩ <;> omega

theorem decode_kv_recordBytes {r : Record} (h : GoodRec r) :
    decode_kv r.bytes = some (r.t, r.kb, r.vb) := by
  obtain ⟨⟨ht, hks, hvs⟩, hka, hva⟩ := h
  have hhdr : (le32 r.t ++ le32 r.kb.length ++ le32 r.vb.length).length = 12 := by
    simp [le32]
  have htake : r.bytes.take 12 = le32 r.t ++ le32 r.kb.length ++ le32 r.vb.length := by
    have : r.bytes = (le32 r.t ++ le32 r.kb.length ++ le32 r.vb.length) ++ (r.kb ++ r.vb) := by
      simp [Record.bytes]
    rw [this, take_append_exact _ hhdr]
  have hdrop : r.bytes.drop 12 = r.kb ++ r.vb := by
    have : r.bytes = (le32 r.t ++ le32 r.kb.length ++ le32 r.vb.length) ++ (r.kb ++ r.vb) := by
      simp [Record.bytes]
    rw [this, drop_append_exact _ hhdr]
  simp only [decode_kv, htake, decode_header_headerBytes ht hks hvs, hdrop]
  rw [if_pos (by simp)]
  rw [take_append_exact _ rfl, drop_append_exact _ rfl]
  simp [utf8Decode_ascii hka, utf8Decode_ascii hva]

theorem encode_kv_ascii {t : Nat} {k v : PyStr}
    (ht : t < 4294967296) (hkl : k.length < 4294967296) (hvl : v.length < 4294967296)
    (hk : ∀ c ∈ k, c < 128) (hv : ∀ c ∈ v, c < 128) :
    encode_kv t k v = some (k.length + v.length, Record.bytes ⟨t, k, v⟩) := by
  simp only [encode_kv, encode_header, if_pos (And.intro ht (And.intro hkl hvl)),
    utf8Encode_ascii hk, utf8Encode_ascii hv]
  simp [pack_s_exact (rfl : k.length = k.length), pack_s_exact (rfl : v.length = v.length),
    Record.bytes]

/-- Bytes produced by a successful `encode_kv` always total
`12 + key_size + value_size`, whatever the strings contain. -/
theorem encode_kv_some_length {t : Nat} {k v : PyStr} {n : Nat} {bs : List Nat}
    (h : encode_kv t k v = some (n, bs)) :
    n = k.length + v.length ∧ bs.length = 12 + k.length + v.length := by
  unfold encode_kv at h
  rcases hh : encode_header t k.length v.length with _ | hdr <;> rw [hh] at h
  · simp at h
  rcases hke : utf8Encode k with _ | kb <;> rw [hke] at h
  · simp at h
  rcases hve : utf8Encode v with _ | vb <;> rw [hve] at h
  · simp at h
  simp only [Option.some.injEq, Prod.mk.injEq] at h
  obtain ⟨hn, hbs⟩ := h
  have hl : hdr.length = 12 := by
    unfold encode_header at hh
    split at hh
    · cases hh; simp [le32]
    · cases hh
  constructor
  · omega
  · rw [← hbs]
    simp [hl, pack_s_length]
    omega

/-- The bounds `struct.pack("III", ...)` enforces when `encode_kv` succeeds. -/
theorem encode_kv_some_bounds {t : Nat} {k v : PyStr} {p : Nat × List Nat}
    (h : encode_kv t k v = some p) :
    t < 4294967296 ∧ k.length < 4294967296 ∧ v.length < 4294967296 := by
  unfold encode_kv at h
  rcases hh : encode_header t k.length v.length with _ | hdr <;> rw [hh] at h
  · simp at h
  unfold encode_header at hh
  split at hh
  · assumption
  · cases hh

/-- C9: `decode_header` returns a `(timestamp, key_size, value_size)` triple
exactly when its input is exactly 12 bytes long, and fails (raises
`struct.error`) for every shorter or longer input. -/
theorem c9_decode_header_exact_twelve (data : List Nat) :
    (decode_header data).isSome ↔ data.length = 12 := by
  unfold decode_header
  split <;> simp_all

/-- C1 counterexample: the triple `(0, "é", "")` has timestamp 0 and
key/value byte-lengths 2 and 0, all fitting 32 bits, yet the encoded bytes
end in the lone byte 0xC3 (the 2-byte UTF-8 sequence for "é" truncated to
`len("é") = 1` byte by `struct.pack("1s", ...)`), so decoding raises
`UnicodeDecodeError` instead of returning the triple. -/
theorem c1_counterexample :
    encode_kv 0 [233] [] = some (1, [0, 0, 0, 0, 1, 0, 0, 0, 0, 0, 0, 0, 195]) ∧
    decode_kv [0, 0, 0, 0, 1, 0, 0, 0, 0, 0, 0, 0, 195] = none := by
  constructor <;> decide

/-- C1 (amended): the codec round-trip law holds for triples whose timestamp
and key/value lengths fit in 32 bits and whose key and value consist of
ASCII characters only (code points below 128), the case in which Python's
`len` character counts coincide with the UTF-8 byte counts `encode_kv`
actually stores. -/
theorem c1_roundtrip_ascii (t : Nat) (k v : PyStr)
    (ht : t < 4294967296) (hkl : k.length < 4294967296) (hvl : v.length < 4294967296)
    (hk : ∀ c ∈ k, c < 128) (hv : ∀ c ∈ v, c < 128) :
    (encode_kv t k v).bind (fun p => decode_kv p.2) = some (t, k, v) := by
  rw [encode_kv_ascii ht hkl hvl hk hv]
  exact decode_kv_recordBytes ⟨⟨ht, hkl, hvl⟩, hk, hv⟩

/-- C1 witness: the round trip at the concrete ASCII triple `(7, "hi", "!")`. -/
theorem c1_roundtrip_witness :
    (encode_kv 7 [104, 105] [33]).bind (fun p => decode_kv p.2) = some (7, [104, 105], [33]) :=
  c1_roundtrip_ascii 7 [104, 105] [33] (by decide) (by decide) (by decide)
    (by decide) (by decide)

/-
Storage engine: src/disk_store.py.

There is a single file: `DiskStorage.__init__` opens `file_name` in "ab+"
mode (create if absent, append + read), every keydir entry's `file_id` is
that same `file_name`, and `get` reopens the file named by the entry, so
the file system is modelled as the byte content of that one file, carried
in the engine state.  `set` flushes and fsyncs after writing, so the state
`file` is also the on-disk content.  The attribute `self.offset` is only
read during the `__init__` scan and never afterwards, so it is not carried
in the state.  `get` opens a separate read handle and mutates neither the
keydir nor the file, so it is embedded as a pure function of the state.
-/

/-- An in-memory index entry: the dict stored in `DiskStorage.keydir` for
one key (fields `file_id`, `value_sz`, `value_pos`, `tstamp`). -/
structure Entry where
  file_id : String
  value_sz : Nat
  value_pos : Nat
  tstamp : Nat
deriving DecidableEq

/-- Python dict read access `keydir[key]` (with `key in keydir` as
`isSome`); the keydir is modelled as an association list. -/
def lookupEntry : List (PyStr × Entry) → PyStr → Option Entry
  | [], _ => none
  | (k', e) :: rest, k => if k' = k then some e else lookupEntry rest k

/-- Python dict write access `keydir[key] = entry` (in `set` the source
writes the four fields one by one, which amounts to replacing the whole
entry). -/
def upsertEntry : List (PyStr × Entry) → PyStr → Entry → List (PyStr × Entry)
  | [], k, e => [(k, e)]
  | (k', e') :: rest, k, e =>
    if k' = k then (k, e) :: rest else (k', e') :: upsertEntry rest k e

/-- The engine state: construction file name, log file content, keydir. -/
structure DiskStorage where
  file_id : String
  file : List Nat
  keydir : List (PyStr × Entry)
deriving DecidableEq

/-- Source: src/disk_store.py, the replay loop of `DiskStorage.__init__`.
At each step the loop seeks to `offset`, reads 12 bytes as a header (a
short read makes `decode_header` raise), seeks again and reads
`12 + key_size + value_size` bytes, decodes them with `decode_kv` (a short
read makes it raise), RECOMPUTES `key_size` and `value_size` as the Python
`len` of the decoded strings, advances `offset` by `12 + key_size +
value_size`, and stores the keydir entry with `value_pos = offset -
value_size` and the header timestamp.  The first component of the result
lists the start offsets the loop visited (instrumentation used to state
the gapless-replay property); the second is the final keydir, `none`
meaning construction raised an exception. -/
def replayTrace (file : List Nat) (fid : String) (offset : Nat)
    (kd : List (PyStr × Entry)) : List Nat × Option (List (PyStr × Entry)) :=
  if h : offset < file.length then
    match decode_header ((file.drop offset).take 12) with
    | none => ([offset], none)
    | some (timestamp, key_size, value_size) =>
      match decode_kv ((file.drop offset).take (12 + key_size + value_size)) with
      | none => ([offset], none)
      | some (_, key, value) =>
        (offset :: (replayTrace file fid (offset + 12 + key.length + value.length)
            (upsertEntry kd key
              ⟨fid, value.length, offset + 12 + key.length + value.length - value.length,
                timestamp⟩)).1,
         (replayTrace file fid (offset + 12 + key.length + value.length)
            (upsertEntry kd key
              ⟨fid, value.length, offset + 12 + key.length + value.length - value.length,
                timestamp⟩)).2)
  else ([], some kd)
termination_by file.length - offset
decreasing_by all_goals omega

/-- Source: src/disk_store.py, `DiskStorage.__init__` on a file whose
current content is `file`; `none` models construction raising. -/
def DiskStorage.init (file_name : String) (file : List Nat) : Option DiskStorage :=
  match (replayTrace file file_name 0 []).2 with
  | some kd => some ⟨file_name, file, kd⟩
  | none => none

/-- Source: src/disk_store.py, `DiskStorage.set` with the wall-clock
timestamp `int(time.time())` passed in as `now`.  The record is appended
(mode "ab+", so `file_handle.tell()` after the write is the new file
length) and the keydir entry is replaced with `value_pos = tell() -
len(value)`. -/
def DiskStorage.set (s : DiskStorage) (now : Nat) (key value : PyStr) : Option DiskStorage :=
  match encode_kv now key value with
  | some (_, kv_data) =>
    some ⟨s.file_id, s.file ++ kv_data,
      upsertEntry s.keydir key
        ⟨s.file_id, value.length, (s.file ++ kv_data).length - value.length, now⟩⟩
  | none => none

/-- Source: src/disk_store.py, `DiskStorage.get`.  A missing key returns
the empty string; otherwise the file named by the entry's `file_id` (the
engine's one file) is reopened, `value_sz` bytes are read at `value_pos`
(`struct.unpack(f"{value_sz}s", ...)` raises on a short read) and decoded
as UTF-8. -/
def DiskStorage.get (s : DiskStorage) (key : PyStr) : Option PyStr :=
  match lookupEntry s.keydir key with
  | none => some []
  | some metadata =>
    if ((s.file.drop metadata.value_pos).take metadata.value_sz).length = metadata.value_sz then
      utf8Decode ((s.file.drop metadata.value_pos).take metadata.value_sz)
    else none

theorem replayTrace_stop {file : List Nat} {fid : String} {offset : Nat}
    {kd : List (PyStr × Entry)} (h : ¬ offset < file.length) :
    replayTrace file fid offset kd = ([], some kd) := by
  rw [replayTrace.eq_def]
  simp [h]

theorem init_nil (fid : String) : DiskStorage.init fid [] = some ⟨fid, [], []⟩ := by
  unfold DiskStorage.init
  rw [replayTrace_stop (by simp)]

/-- C6: a `get` on a key that is not in the keydir returns the empty
string (`""`), not an error; in this embedding `get` is a pure function of
the state, reflecting that the source's `get` mutates neither the keydir
nor the file. -/
theorem c6_missing_key_empty (s : DiskStorage) (k : PyStr)
    (h : lookupEntry s.keydir k = none) : s.get k = some [] := by
  simp [DiskStorage.get, h]

/-- C6 witness: a missing key on a freshly opened engine over an empty
file. -/
theorem c6_missing_key_empty_witness :
    DiskStorage.get ⟨"data.db", [], []⟩ [110] = some [] :=
  c6_missing_key_empty ⟨"data.db", [], []⟩ [110] rfl

/-- C7: every successful `set` appends exactly the encoded record
(`12 + key_size + value_size` bytes, the sizes being the `len` values the
header declares) at the end of the file, leaves every previously written
byte unchanged, and replaces only the written key's entry. -/
theorem c7_append_only (s : DiskStorage) (now : Nat) (k v : PyStr) (s' : DiskStorage)
    (h : s.set now k v = some s') :
    Option.map Prod.snd (encode_kv now k v) = some (s'.file.drop s.file.length) ∧
    s'.file.take s.file.length = s.file ∧
    s'.file.length = s.file.length + (12 + k.length + v.length) ∧
    s'.file_id = s.file_id ∧
    s'.keydir = upsertEntry s.keydir k ⟨s.file_id, v.length, s'.file.length - v.length, now⟩ := by
  unfold DiskStorage.set at h
  rcases henc : encode_kv now k v with _ | ⟨n, kv_data⟩ <;> rw [henc] at h
  · cases h
  obtain ⟨-, hlen⟩ := encode_kv_some_length henc
  cases h
  refine ⟨?_, take_append_exact _ rfl, ?_, rfl, rfl⟩
  · have hdrop : (s.file ++ kv_data).drop s.file.length = kv_data := drop_append_exact _ rfl
    show Option.map Prod.snd (some (n, kv_data)) = some ((s.file ++ kv_data).drop s.file.length)
    rw [hdrop]
    rfl
  · show (s.file ++ kv_data).length = s.file.length + (12 + k.length + v.length)
    simp [hlen] <;> omega

/-- C7 witness: one concrete `set` on an engine with an empty file. -/
theorem c7_append_only_witness :
    Option.map Prod.snd (encode_kv 5 [97] [98]) =
      some ((DiskStorage.mk "data.db" [5, 0, 0, 0, 1, 0, 0, 0, 1, 0, 0, 0, 97, 98]
        [([97], ⟨"data.db", 1, 13, 5⟩)]).file.drop (DiskStorage.mk "data.db" [] []).file.length) ∧
    (DiskStorage.mk "data.db" [5, 0, 0, 0, 1, 0, 0, 0, 1, 0, 0, 0, 97, 98]
        [([97], ⟨"data.db", 1, 13, 5⟩)]).file.take (DiskStorage.mk "data.db" [] []).file.length
      = (DiskStorage.mk "data.db" [] []).file ∧
    (DiskStorage.mk "data.db" [5, 0, 0, 0, 1, 0, 0, 0, 1, 0, 0, 0, 97, 98]
        [([97], ⟨"data.db", 1, 13, 5⟩)]).file.length
      = (DiskStorage.mk "data.db" [] []).file.length + (12 + [97].length + [98].length) ∧
    (DiskStorage.mk "data.db" [5, 0, 0, 0, 1, 0, 0, 0, 1, 0, 0, 0, 97, 98]
        [([97], ⟨"data.db", 1, 13, 5⟩)]).file_id = (DiskStorage.mk "data.db" [] []).file_id ∧
    (DiskStorage.mk "data.db" [5, 0, 0, 0, 1, 0, 0, 0, 1, 0, 0, 0, 97, 98]
        [([97], ⟨"data.db", 1, 13, 5⟩)]).keydir
      = upsertEntry (DiskStorage.mk "data.db" [] []).keydir [97]
          ⟨(DiskStorage.mk "data.db" [] []).file_id, [98].length,
            (DiskStorage.mk "data.db" [5, 0, 0, 0, 1, 0, 0, 0, 1, 0, 0, 0, 97, 98]
              [([97], ⟨"data.db", 1, 13, 5⟩)]).file.length - [98].length, 5⟩ :=
  c7_append_only (DiskStorage.mk "data.db" [] []) 5 [97] [98]
    (DiskStorage.mk "data.db" [5, 0, 0, 0, 1, 0, 0, 0, 1, 0, 0, 0, 97, 98]
      [([97], ⟨"data.db", 1, 13, 5⟩)]) (by decide)

/-- C2 counterexample: on an engine freshly constructed over the empty
file, `set("k", "é")` (key `"k"` = code 107, value `"é"` = code 233)
stores `value_sz = len("é") = 1` although the UTF-8 encoding of `"é"` is
the two bytes [195, 169]; the byte read back at `value_pos` is the single
truncated byte 195, which is not that value, and `get("k")` raises
`UnicodeDecodeError` (`none`) instead of returning the value most recently
set. -/
theorem c2_counterexample :
    DiskStorage.init "data.db" [] = some ⟨"data.db", [], []⟩ ∧
    DiskStorage.set ⟨"data.db", [], []⟩ 0 [107] [233] =
      some ⟨"data.db", [0, 0, 0, 0, 1, 0, 0, 0, 1, 0, 0, 0, 107, 195],
        [([107], ⟨"data.db", 1, 13, 0⟩)]⟩ ∧
    utf8Encode [233] = some [195, 169] ∧
    (([0, 0, 0, 0, 1, 0, 0, 0, 1, 0, 0, 0, 107, 195] : List Nat).drop 13).take 1 = [195] ∧
    DiskStorage.get ⟨"data.db", [0, 0, 0, 0, 1, 0, 0, 0, 1, 0, 0, 0, 107, 195],
      [([107], ⟨"data.db", 1, 13, 0⟩)]⟩ [107] = none :=
  ⟨init_nil "data.db", by decide, by decide, by decide, by decide⟩

/-- C3 counterexample: after `set("k", "v")` then `set("k", "é")` on an
engine constructed over the empty file, `get("k")` does not return the
second value: it raises `UnicodeDecodeError` (`none`), because the second
record stored only the first byte of the UTF-8 encoding of `"é"`. -/
theorem c3_counterexample :
    DiskStorage.init "data.db" [] = some ⟨"data.db", [], []⟩ ∧
    DiskStorage.set ⟨"data.db", [], []⟩ 0 [107] [118] =
      some ⟨"data.db", [0, 0, 0, 0, 1, 0, 0, 0, 1, 0, 0, 0, 107, 118],
        [([107], ⟨"data.db", 1, 13, 0⟩)]⟩ ∧
    DiskStorage.set ⟨"data.db", [0, 0, 0, 0, 1, 0, 0, 0, 1, 0, 0, 0, 107, 118],
        [([107], ⟨"data.db", 1, 13, 0⟩)]⟩ 1 [107] [233] =
      some ⟨"data.db", [0, 0, 0, 0, 1, 0, 0, 0, 1, 0, 0, 0, 107, 118,
          1, 0, 0, 0, 1, 0, 0, 0, 1, 0, 0, 0, 107, 195],
        [([107], ⟨"data.db", 1, 27, 1⟩)]⟩ ∧
    DiskStorage.get ⟨"data.db", [0, 0, 0, 0, 1, 0, 0, 0, 1, 0, 0, 0, 107, 118,
        1, 0, 0, 0, 1, 0, 0, 0, 1, 0, 0, 0, 107, 195],
      [([107], ⟨"data.db", 1, 27, 1⟩)]⟩ [107] = none :=
  ⟨init_nil "data.db", by decide, by decide, by decide⟩

/-- C10 counterexample: `set("", "é")` on an engine constructed over the
empty file succeeds and appends a record with `key_size` 0, but the
subsequent `get("")` does not return the value: it raises
`UnicodeDecodeError` (`none`), because only the first byte of the UTF-8
encoding of `"é"` was stored. -/
theorem c10_counterexample :
    DiskStorage.init "data.db" [] = some ⟨"data.db", [], []⟩ ∧
    DiskStorage.set ⟨"data.db", [], []⟩ 0 [] [233] =
      some ⟨"data.db", [0, 0, 0, 0, 0, 0, 0, 0, 1, 0, 0, 0, 195],
        [([], ⟨"data.db", 1, 12, 0⟩)]⟩ ∧
    DiskStorage.get ⟨"data.db", [0, 0, 0, 0, 0, 0, 0, 0, 1, 0, 0, 0, 195],
      [([], ⟨"data.db", 1, 12, 0⟩)]⟩ [] = none :=
  ⟨init_nil "data.db", by decide, by decide⟩

/-- The keydir the replay loop builds from a list of records, mirroring one
loop iteration per record: entry `value_pos` is the advanced offset minus
the value length, i.e. `off + 12 + key_size`, with sizes the byte counts
(equal to the decoded character counts for ASCII records). -/
def buildIndex (fid : String) : List Record → Nat → List (PyStr × Entry) → List (PyStr × Entry)
  | [], _, kd => kd
  | r :: rest, off, kd =>
    buildIndex fid rest (off + 12 + r.kb.length + r.vb.length)
      (upsertEntry kd r.kb ⟨fid, r.vb.length, off + 12 + r.kb.length, r.t⟩)

/-- The start offset of each record when the records are laid out
consecutively from `off`: each record's end offset is the next record's
start offset. -/
def recordStarts : List Record → Nat → List Nat
  | [], _ => []
  | r :: rest, off => off :: recordStarts rest (off + (12 + r.kb.length + r.vb.length))

/-- The LAST record of the list whose key bytes are `k`, together with its
start offset when the records are laid out consecutively from `off`. -/
def findLastWithPos : List Record → Nat → PyStr → Option (Record × Nat)
  | [], _, _ => none
  | r :: rest, off, k =>
    match findLastWithPos rest (off + 12 + r.kb.length + r.vb.length) k with
    | some x => some x
    | none => if r.kb = k then some (r, off) else none

theorem lookup_upsert (kd : List (PyStr × Entry)) (a k : PyStr) (e : Entry) :
    lookupEntry (upsertEntry kd a e) k = if a = k then some e else lookupEntry kd k := by
  induction kd with
  | nil => simp [upsertEntry, lookupEntry]
  | cons p rest ih =>
    obtain ⟨k', e'⟩ := p
    by_cases h1 : k' = a
    · subst h1
      simp only [upsertEntry, if_pos rfl, lookupEntry]
      by_cases h2 : k' = k <;> simp [h2]
    · simp only [upsertEntry, if_neg h1, lookupEntry, ih]
      by_cases h2 : k' = k <;> by_cases h3 : a = k <;> simp [h2, h3]
      exact absurd (h2.trans h3.symm) h1

theorem lookup_buildIndex (fid : String) :
    ∀ (rs : List Record) (off : Nat) (kd : List (PyStr × Entry)) (k : PyStr),
    lookupEntry (buildIndex fid rs off kd) k =
      match findLastWithPos rs off k with
      | some (r, roff) => some ⟨fid, r.vb.length, roff + 12 + r.kb.length, r.t⟩
      | none => lookupEntry kd k
  | [], off, kd, k => rfl
  | r :: rest, off, kd, k => by
    simp only [buildIndex, findLastWithPos]
    rw [lookup_buildIndex fid rest _ _ k]
    rcases hf : findLastWithPos rest (off + 12 + r.kb.length + r.vb.length) k with _ | ⟨r', roff'⟩
    · rw [lookup_upsert]
      by_cases hk : r.kb = k <;> simp [hk]
    · simp

theorem findLast_bytes :
    ∀ (rs : List Record) (pre : List Nat) (k : PyStr) (r : Record) (roff : Nat),
      findLastWithPos rs pre.length k = some (r, roff) →
      ((pre ++ fileOf rs).drop (roff + 12 + r.kb.length)).take r.vb.length = r.vb
  | [], pre, k, r, roff, h => by cases h
  | r0 :: rest, pre, k, r, roff, h => by
    simp only [findLastWithPos] at h
    rcases hf : findLastWithPos rest (pre.length + 12 + r0.kb.length + r0.vb.length) k
      with _ | ⟨r', roff'⟩ <;> rw [hf] at h
    · by_cases hk : r0.kb = k
      · rw [if_pos hk] at h
        cases h
        have hsplit : pre ++ fileOf (r0 :: rest)
            = (pre ++ (le32 r0.t ++ le32 r0.kb.length ++ le32 r0.vb.length ++ r0.kb))
              ++ (r0.vb ++ fileOf rest) := by
          simp [fileOf, Record.bytes, List.append_assoc]
        rw [hsplit,
          drop_append_exact _ (by simp [le32]; omega),
          take_append_exact _ rfl]
      · rw [if_neg hk] at h
        cases h
    · cases h
      have hlen : (pre ++ r0.bytes).length = pre.length + 12 + r0.kb.length + r0.vb.length := by
        simp [Record.bytes_length]
        omega
      have hrec := findLast_bytes rest (pre ++ r0.bytes) k r roff (by rw [hlen]; exact hf)
      have hassoc : (pre ++ r0.bytes) ++ fileOf rest = pre ++ fileOf (r0 :: rest) := by
        simp [fileOf, List.append_assoc]
      rw [hassoc] at hrec
      exact hrec

theorem findLast_mem :
    ∀ (rs : List Record) (off : Nat) (k : PyStr) (r : Record) (roff : Nat),
      findLastWithPos rs off k = some (r, roff) → r ∈ rs ∧ r.kb = k
  | [], _, _, _, _, h => by cases h
  | r0 :: rest, off, k, r, roff, h => by
    simp only [findLastWithPos] at h
    rcases hf : findLastWithPos rest (off + 12 + r0.kb.length + r0.vb.length) k
      with _ | ⟨r', roff'⟩ <;> rw [hf] at h
    · by_cases hk : r0.kb = k
      · rw [if_pos hk] at h
        cases h
        exact ⟨by simp, hk⟩
      · rw [if_neg hk] at h
        cases h
    · cases h
      have := findLast_mem rest _ k r roff hf
      exact ⟨by simp [this.1], this.2⟩

theorem replayTrace_cons {file : List Nat} (fid : String) {offset : Nat}
    (kd : List (PyStr × Entry)) (hlt : offset < file.length)
    {t ks vs : Nat} (hh : decode_header ((file.drop offset).take 12) = some (t, ks, vs))
    {t' : Nat} {key value : PyStr}
    (hk : decode_kv ((file.drop offset).take (12 + ks + vs)) = some (t', key, value)) :
    replayTrace file fid offset kd =
      (offset :: (replayTrace file fid (offset + 12 + key.length + value.length)
          (upsertEntry kd key ⟨fid, value.length,
            offset + 12 + key.length + value.length - value.length, t⟩)).1,
       (replayTrace file fid (offset + 12 + key.length + value.length)
          (upsertEntry kd key ⟨fid, value.length,
            offset + 12 + key.length + value.length - value.length, t⟩)).2) := by
  rw [replayTrace.eq_def, dif_pos hlt, hh]
  simp only []
  rw [hk]

theorem replayTrace_fail_header {file : List Nat} (fid : String) {offset : Nat}
    (kd : List (PyStr × Entry)) (hlt : offset < file.length)
    (hh : decode_header ((file.drop offset).take 12) = none) :
    replayTrace file fid offset kd = ([offset], none) := by
  rw [replayTrace.eq_def, dif_pos hlt, hh]

theorem replayTrace_fail_kv {file : List Nat} (fid : String) {offset : Nat}
    (kd : List (PyStr × Entry)) (hlt : offset < file.length)
    {t ks vs : Nat} (hh : decode_header ((file.drop offset).take 12) = some (t, ks, vs))
    (hk : decode_kv ((file.drop offset).take (12 + ks + vs)) = none) :
    replayTrace file fid offset kd = ([offset], none) := by
  rw [replayTrace.eq_def, dif_pos hlt, hh]
  simp only []
  rw [hk]

theorem replayTrace_good (fid : String) :
    ∀ (rs : List Record), (∀ r ∈ rs, GoodRec r) →
    ∀ (pre tail : List Nat) (kd : List (PyStr × Entry)),
      replayTrace (pre ++ fileOf rs ++ tail) fid pre.length kd =
        (recordStarts rs pre.length ++
          (replayTrace (pre ++ fileOf rs ++ tail) fid (pre.length + (fileOf rs).length)
            (buildIndex fid rs pre.length kd)).1,
         (replayTrace (pre ++ fileOf rs ++ tail) fid (pre.length + (fileOf rs).length)
            (buildIndex fid rs pre.length kd)).2)
  | [], _, pre, tail, kd => by
    simp [fileOf, recordStarts, buildIndex]
  | r :: rest, h, pre, tail, kd => by
    have hrest : ∀ x ∈ rest, GoodRec x := fun x hx => h x (by simp [hx])
    obtain ⟨⟨ht, hks, hvs⟩, hka, hva⟩ := h r (by simp)
    have hdropF : (pre ++ fileOf (r :: rest) ++ tail).drop pre.length
        = r.bytes ++ (fileOf rest ++ tail) := by
      rw [List.append_assoc, drop_append_exact _ rfl]
      simp [fileOf, List.append_assoc]
    have hlt : pre.length < (pre ++ fileOf (r :: rest) ++ tail).length := by
      simp [fileOf, Record.bytes_length] <;> omega
    have hhead : ((pre ++ fileOf (r :: rest) ++ tail).drop pre.length).take 12
        = le32 r.t ++ le32 r.kb.length ++ le32 r.vb.length := by
      rw [hdropF]
      have hb : r.bytes ++ (fileOf rest ++ tail)
          = (le32 r.t ++ le32 r.kb.length ++ le32 r.vb.length)
            ++ (r.kb ++ (r.vb ++ (fileOf rest ++ tail))) := by
        simp [Record.bytes, List.append_assoc]
      rw [hb, take_append_exact _ (by simp [le32])]
    have hkv : ((pre ++ fileOf (r :: rest) ++ tail).drop pre.length).take
        (12 + r.kb.length + r.vb.length) = r.bytes := by
      rw [hdropF]
      exact take_append_exact _ (Record.bytes_length r)
    rw [replayTrace_cons fid kd hlt
      (by rw [hhead]; exact decode_header_headerBytes ht hks hvs)
      (by rw [hkv]; exact decode_kv_recordBytes ⟨⟨ht, hks, hvs⟩, hka, hva⟩)]
    have hpos : pre.length + 12 + r.kb.length + r.vb.length - r.vb.length
        = pre.length + 12 + r.kb.length := by omega
    rw [hpos]
    have ih := replayTrace_good fid rest hrest (pre ++ r.bytes) tail
      (upsertEntry kd r.kb ⟨fid, r.vb.length, pre.length + 12 + r.kb.length, r.t⟩)
    have hFassoc : (pre ++ r.bytes) ++ fileOf rest ++ tail = pre ++ fileOf (r :: rest) ++ tail := by
      simp [fileOf, List.append_assoc]
    have hoff' : (pre ++ r.bytes).length = pre.length + 12 + r.kb.length + r.vb.length := by
      simp [Record.bytes_length] <;> omega
    rw [hFassoc, hoff'] at ih
    rw [ih]
    simp only [recordStarts, buildIndex, List.cons_append]
    have hoff2 : pre.length + (fileOf (r :: rest)).length
        = pre.length + 12 + r.kb.length + r.vb.length + (fileOf rest).length := by
      simp [fileOf, Record.bytes_length] <;> omega
    have hstart : pre.length + (12 + r.kb.length + r.vb.length)
        = pre.length + 12 + r.kb.length + r.vb.length := by omega
    rw [hoff2, hstart]

theorem take_ge {α : Type} {l : List α} {n : Nat} (h : l.length ≤ n) : l.take n = l := by
  induction l generalizing n with
  | nil => simp
  | cons a t ih =>
    cases n with
    | zero => simp at h
    | succ m => simp [ih (by simpa using h)]

theorem replayTrace_full (fid : String) {rs : List Record} (h : ∀ r ∈ rs, GoodRec r) :
    replayTrace (fileOf rs) fid 0 [] = (recordStarts rs 0, some (buildIndex fid rs 0 [])) := by
  have hm := replayTrace_good fid rs h [] [] []
  simp only [List.nil_append, List.append_nil, List.length_nil, Nat.zero_add] at hm
  rw [hm, replayTrace_stop (show ¬ (fileOf rs).length < (fileOf rs).length by omega)]
  simp

theorem init_good (fid : String) {rs : List Record} (h : ∀ r ∈ rs, GoodRec r) :
    DiskStorage.init fid (fileOf rs) = some ⟨fid, fileOf rs, buildIndex fid rs 0 []⟩ := by
  unfold DiskStorage.init
  rw [replayTrace_full fid h]

/-- C5 counterexample: the 14-byte file consisting of the single well-formed
record with header `(0, key_size 2, value_size 0)` and key bytes [195, 169]
(the UTF-8 encoding of "é").  Replay decodes the record successfully but
recomputes `key_size` as `len("é") = 1`, so it advances `offset` to 13, one
byte short of the record's end 14: the next read starts strictly inside the
record (13 is not a record start), the remaining byte is never consumed as
a record, and construction then fails on the misaligned header read. -/
theorem c5_counterexample :
    fileOf [⟨0, [195, 169], []⟩] = [0, 0, 0, 0, 2, 0, 0, 0, 0, 0, 0, 0, 195, 169] ∧
    recordStarts [⟨0, [195, 169], []⟩] 0 = [0] ∧
    (fileOf [⟨0, [195, 169], []⟩]).length = 14 ∧
    replayTrace [0, 0, 0, 0, 2, 0, 0, 0, 0, 0, 0, 0, 195, 169] "data.db" 0 [] = ([0, 13], none) ∧
    DiskStorage.init "data.db" [0, 0, 0, 0, 2, 0, 0, 0, 0, 0, 0, 0, 195, 169] = none := by
  have e1 : decode_header ((([0, 0, 0, 0, 2, 0, 0, 0, 0, 0, 0, 0, 195, 169] : List Nat).drop 0).take 12)
      = some (0, 2, 0) := by decide
  have e2 : decode_kv ((([0, 0, 0, 0, 2, 0, 0, 0, 0, 0, 0, 0, 195, 169] : List Nat).drop 0).take (12 + 2 + 0))
      = some (0, [233], []) := by decide
  have htrace : replayTrace [0, 0, 0, 0, 2, 0, 0, 0, 0, 0, 0, 0, 195, 169] "data.db" 0 []
      = ([0, 13], none) := by
    rw [replayTrace_cons "data.db" [] (by decide) e1 e2]
    norm_num [upsertEntry]
    have e3 : replayTrace [0, 0, 0, 0, 2, 0, 0, 0, 0, 0, 0, 0, 195, 169] "data.db" 13
        [([233], ⟨"data.db", 0, 13, 0⟩)] = ([13], none) :=
      replayTrace_fail_header "data.db" _ (by decide) (by decide)
    rw [e3]
    exact ⟨rfl, rfl⟩
  refine ⟨by decide, by decide, by decide, htrace, ?_⟩
  unfold DiskStorage.init
  rw [htrace]

/-- C5 (amended): on a log file that is a concatenation of well-formed
ASCII records (32-bit sizes, payload bytes below 128, so the recomputed
character counts equal the header byte counts), startup replay visits
exactly the record start offsets — each record's end offset `start + 12 +
key_size + value_size` is the next record's start — consumes the file to
end-of-file, starts no read inside a record, and succeeds with the keydir
`buildIndex` describes. -/
theorem c5_gapless_ascii (fid : String) (rs : List Record) (h : ∀ r ∈ rs, GoodRec r) :
    replayTrace (fileOf rs) fid 0 [] = (recordStarts rs 0, some (buildIndex fid rs 0 [])) :=
  replayTrace_full fid h

/-- C5 witness: gapless replay over two concrete ASCII records. -/
theorem c5_gapless_ascii_witness :
    replayTrace (fileOf [⟨1, [97], [98]⟩, ⟨2, [99], []⟩]) "data.db" 0 []
      = (recordStarts [⟨1, [97], [98]⟩, ⟨2, [99], []⟩] 0,
         some (buildIndex "data.db" [⟨1, [97], [98]⟩, ⟨2, [99], []⟩] 0 [])) :=
  c5_gapless_ascii "data.db" [⟨1, [97], [98]⟩, ⟨2, [99], []⟩] (by decide)

/-- C4 counterexample: a log file made of one well-formed record (header
`(0, 2, 1)`, key bytes [195, 169] = "é", value byte [0]) followed by a
strict 11-byte prefix of a second well-formed record (the empty-key
empty-value record, 12 bytes), i.e. a file truncated strictly inside a
record with fewer bytes than the 12-byte header remaining.  Because replay
recomputes `key_size` as the decoded character count 1, it leaves the first
record one byte early and reads the record's last byte 0 plus the 11
truncated zero bytes as a fake well-formed header `(0, 0, 0)`:
construction SUCCEEDS and returns a usable handle instead of failing with
a corruption error. -/
theorem c4_counterexample :
    SizesOk ⟨0, [195, 169], [0]⟩ ∧
    (Record.bytes (⟨0, [], []⟩ : Record)).length = 12 ∧
    fileOf [⟨0, [195, 169], [0]⟩] ++ (Record.bytes (⟨0, [], []⟩ : Record)).take 11
      = [0, 0, 0, 0, 2, 0, 0, 0, 1, 0, 0, 0, 195, 169, 0, 0, 0, 0, 0, 0, 0, 0, 0, 0, 0, 0] ∧
    DiskStorage.init "data.db"
        [0, 0, 0, 0, 2, 0, 0, 0, 1, 0, 0, 0, 195, 169, 0, 0, 0, 0, 0, 0, 0, 0, 0, 0, 0, 0]
      = some ⟨"data.db",
          [0, 0, 0, 0, 2, 0, 0, 0, 1, 0, 0, 0, 195, 169, 0, 0, 0, 0, 0, 0, 0, 0, 0, 0, 0, 0],
          [([233], ⟨"data.db", 1, 13, 0⟩), ([], ⟨"data.db", 0, 26, 0⟩)]⟩ := by
  have e1 : decode_header ((([0, 0, 0, 0, 2, 0, 0, 0, 1, 0, 0, 0, 195, 169, 0,
      0, 0, 0, 0, 0, 0, 0, 0, 0, 0, 0] : List Nat).drop 0).take 12) = some (0, 2, 1) := by decide
  have e2 : decode_kv ((([0, 0, 0, 0, 2, 0, 0, 0, 1, 0, 0, 0, 195, 169, 0,
      0, 0, 0, 0, 0, 0, 0, 0, 0, 0, 0] : List Nat).drop 0).take (12 + 2 + 1))
      = some (0, [233], [0]) := by decide
  have e3 : decode_header ((([0, 0, 0, 0, 2, 0, 0, 0, 1, 0, 0, 0, 195, 169, 0,
      0, 0, 0, 0, 0, 0, 0, 0, 0, 0, 0] : List Nat).drop 14).take 12) = some (0, 0, 0) := by decide
  have e4 : decode_kv ((([0, 0, 0, 0, 2, 0, 0, 0, 1, 0, 0, 0, 195, 169, 0,
      0, 0, 0, 0, 0, 0, 0, 0, 0, 0, 0] : List Nat).drop 14).take (12 + 0 + 0))
      = some (0, [], []) := by decide
  have htrace : replayTrace [0, 0, 0, 0, 2, 0, 0, 0, 1, 0, 0, 0, 195, 169, 0,
      0, 0, 0, 0, 0, 0, 0, 0, 0, 0, 0] "data.db" 0 []
      = ([0, 14], some [([233], ⟨"data.db", 1, 13, 0⟩), ([], ⟨"data.db", 0, 26, 0⟩)]) := by
    rw [replayTrace_cons "data.db" [] (by decide) e1 e2]
    norm_num [upsertEntry]
    rw [replayTrace_cons "data.db" [([233], ⟨"data.db", 1, 13, 0⟩)] (by decide) e3 e4]
    norm_num [upsertEntry]
    rw [replayTrace_stop (by decide :
      ¬ (26 : Nat) < ([0, 0, 0, 0, 2, 0, 0, 0, 1, 0, 0, 0, 195, 169, 0,
        0, 0, 0, 0, 0, 0, 0, 0, 0, 0, 0] : List Nat).length)]
    exact ⟨rfl, rfl⟩
  refine ⟨by decide, by decide, by decide, ?_⟩
  unfold DiskStorage.init
  rw [htrace]

/-- C4 (amended): on a log file that is a concatenation of well-formed
ASCII records followed by a strict nonempty prefix of a further well-formed
record (truncation strictly inside that record: fewer than its declared
`12 + key_size + value_size` bytes remain, possibly fewer than the 12-byte
header), engine construction fails rather than returning a usable
handle. -/
theorem c4_truncation_ascii (fid : String) (rs : List Record) (rlast : Record) (n : Nat)
    (h : ∀ r ∈ rs, GoodRec r) (hsz : SizesOk rlast) (hn0 : 0 < n)
    (hnlt : n < rlast.bytes.length) :
    DiskStorage.init fid (fileOf rs ++ rlast.bytes.take n) = none := by
  obtain ⟨ht, hks, hvs⟩ := hsz
  have hblen := Record.bytes_length rlast
  have hplen : (rlast.bytes.take n).length = n := by
    simp [List.length_take]
    omega
  have hm := replayTrace_good fid rs h [] (rlast.bytes.take n) []
  simp only [List.nil_append, List.length_nil, Nat.zero_add] at hm
  have hlt : (fileOf rs).length < (fileOf rs ++ rlast.bytes.take n).length := by
    simp [hplen]
    omega
  have hdrop : (fileOf rs ++ rlast.bytes.take n).drop (fileOf rs).length = rlast.bytes.take n :=
    drop_append_exact _ rfl
  by_cases h12 : n < 12
  · have hh : decode_header
        (((fileOf rs ++ rlast.bytes.take n).drop (fileOf rs).length).take 12) = none := by
      rw [hdrop, take_ge (by rw [hplen]; omega)]
      unfold decode_header
      rw [if_neg (by rw [hplen]; omega)]
    rw [replayTrace_fail_header fid _ hlt hh] at hm
    unfold DiskStorage.init
    rw [hm]
  · push_neg at h12
    have htk12 : (rlast.bytes.take n).take 12
        = le32 rlast.t ++ le32 rlast.kb.length ++ le32 rlast.vb.length := by
      rw [List.take_take]
      have hmin : min 12 n = 12 := by omega
      rw [hmin]
      have hb : rlast.bytes = (le32 rlast.t ++ le32 rlast.kb.length ++ le32 rlast.vb.length)
          ++ (rlast.kb ++ rlast.vb) := by
        simp [Record.bytes, List.append_assoc]
      rw [hb, take_append_exact _ (by simp [le32])]
    have hh : decode_header
        (((fileOf rs ++ rlast.bytes.take n).drop (fileOf rs).length).take 12)
        = some (rlast.t, rlast.kb.length, rlast.vb.length) := by
      rw [hdrop, htk12]
      exact decode_header_headerBytes ht hks hvs
    have hkv : decode_kv (((fileOf rs ++ rlast.bytes.take n).drop (fileOf rs).length).take
        (12 + rlast.kb.length + rlast.vb.length)) = none := by
      rw [hdrop, take_ge (by rw [hplen]; omega)]
      unfold decode_kv
      rw [htk12, decode_header_headerBytes ht hks hvs]
      simp only []
      rw [if_neg (by simp only [List.length_drop, hplen]; omega)]
    rw [replayTrace_fail_kv fid _ hlt hh hkv] at hm
    unfold DiskStorage.init
    rw [hm]

/-- C4 witness: one good ASCII record followed by the first 5 bytes of a
second record; construction fails. -/
theorem c4_truncation_ascii_witness :
    DiskStorage.init "data.db"
      (fileOf [⟨0, [97], [98]⟩] ++ (Record.bytes (⟨1, [99], [100]⟩ : Record)).take 5) = none :=
  c4_truncation_ascii "data.db" [⟨0, [97], [98]⟩] ⟨1, [99], [100]⟩ 5
    (by decide) (by decide) (by decide) (by decide)

/-- Correspondence between an engine state and the record list its log file
holds: all records are ASCII with 32-bit sizes, the file is their
concatenation, and the keydir is exactly what replay builds from them. -/
def GoodState (s : DiskStorage) (rs : List Record) : Prop :=
  (∀ r ∈ rs, GoodRec r) ∧ s.file = fileOf rs ∧ s.keydir = buildIndex s.file_id rs 0 []

/-- Engine states reachable by construction-time replay over a log file of
well-formed ASCII records followed by any sequence of successful `set`
calls with ASCII keys and values (`get` does not change the state). -/
inductive ReachableAscii : DiskStorage → List Record → Prop
  | boot (fid : String) (rs : List Record) (s : DiskStorage) :
      (∀ r ∈ rs, GoodRec r) → DiskStorage.init fid (fileOf rs) = some s →
      ReachableAscii s rs
  | step (s : DiskStorage) (rs : List Record) (now : Nat) (key value : PyStr)
      (s' : DiskStorage) :
      ReachableAscii s rs → (∀ c ∈ key, c < 128) → (∀ c ∈ value, c < 128) →
      s.set now key value = some s' → ReachableAscii s' (rs ++ [⟨now, key, value⟩])

theorem buildIndex_append (fid : String) :
    ∀ (rs : List Record) (r : Record) (off : Nat) (kd : List (PyStr × Entry)),
      buildIndex fid (rs ++ [r]) off kd
        = upsertEntry (buildIndex fid rs off kd) r.kb
            ⟨fid, r.vb.length, off + (fileOf rs).length + 12 + r.kb.length, r.t⟩
  | [], r, off, kd => by simp [buildIndex, fileOf]
  | r0 :: rest, r, off, kd => by
    simp only [List.cons_append, buildIndex, List.append_eq]
    rw [buildIndex_append fid rest r _ _]
    have hoff : off + 12 + r0.kb.length + r0.vb.length + (fileOf rest).length
        = off + (fileOf (r0 :: rest)).length := by
      simp [fileOf, Record.bytes_length] <;> omega
    rw [hoff]

theorem findLast_append_last :
    ∀ (rs : List Record) (off : Nat) (k : PyStr) (r : Record), r.kb = k →
    findLastWithPos (rs ++ [r]) off k = some (r, off + (fileOf rs).length)
  | [], off, k, r, hkb => by
    simp [findLastWithPos, fileOf, hkb]
  | r0 :: rest, off, k, r, hkb => by
    simp only [List.cons_append, findLastWithPos, List.append_eq]
    rw [findLast_append_last rest _ k r hkb]
    simp only []
    have hoff : off + 12 + r0.kb.length + r0.vb.length + (fileOf rest).length
        = off + (fileOf (r0 :: rest)).length := by
      simp [fileOf, Record.bytes_length] <;> omega
    rw [hoff]

theorem set_good {s : DiskStorage} {rs : List Record} {now : Nat} {key value : PyStr}
    {s' : DiskStorage} (hg : GoodState s rs)
    (hk : ∀ c ∈ key, c < 128) (hv : ∀ c ∈ value, c < 128)
    (hset : s.set now key value = some s') :
    GoodState s' (rs ++ [⟨now, key, value⟩]) := by
  obtain ⟨hgood, hfile, hkd⟩ := hg
  unfold DiskStorage.set at hset
  rcases henc : encode_kv now key value with _ | ⟨n, kv_data⟩ <;> rw [henc] at hset
  · cases hset
  obtain ⟨ht, hklen, hvlen⟩ := encode_kv_some_bounds henc
  have henc2 := encode_kv_ascii ht hklen hvlen hk hv
  rw [henc2] at henc
  cases henc
  cases hset
  refine ⟨?_, ?_, ?_⟩
  · intro r hr
    rcases List.mem_append.mp hr with h1 | h2
    · exact hgood r h1
    · simp at h2
      subst h2
      exact ⟨⟨ht, hklen, hvlen⟩, hk, hv⟩
  · show s.file ++ Record.bytes ⟨now, key, value⟩ = fileOf (rs ++ [⟨now, key, value⟩])
    rw [hfile, fileOf_append]
    simp [fileOf]
  · show upsertEntry s.keydir key ⟨s.file_id, value.length,
        (s.file ++ Record.bytes ⟨now, key, value⟩).length - value.length, now⟩
      = buildIndex s.file_id (rs ++ [⟨now, key, value⟩]) 0 []
    rw [buildIndex_append, hkd, hfile]
    have hp : (fileOf rs ++ Record.bytes ⟨now, key, value⟩).length - value.length
        = 0 + (fileOf rs).length + 12 + key.length := by
      simp [Record.bytes_length] <;> omega
    rw [hp]

theorem reachable_goodState {s : DiskStorage} {rs : List Record}
    (h : ReachableAscii s rs) : GoodState s rs := by
  induction h with
  | boot fid rs s hgood hinit =>
    rw [init_good fid hgood] at hinit
    cases hinit
    exact ⟨hgood, rfl, rfl⟩
  | step s rs now key value s' hre hk hv hset ih =>
    exact set_good ih hk hv hset

theorem get_goodState {s : DiskStorage} {rs : List Record} (hg : GoodState s rs) (k : PyStr) :
    s.get k = some (((findLastWithPos rs 0 k).map (fun x => x.1.vb)).getD []) := by
  obtain ⟨hgood, hfile, hkd⟩ := hg
  unfold DiskStorage.get
  rw [hkd, lookup_buildIndex]
  rcases hf : findLastWithPos rs 0 k with _ | ⟨r, roff⟩
  · simp [lookupEntry]
  · obtain ⟨hmem, hkb⟩ := findLast_mem rs 0 k r roff hf
    obtain ⟨_, _, hva⟩ := hgood r hmem
    have hbytes := findLast_bytes rs [] k r roff hf
    simp only [List.nil_append] at hbytes
    simp only [Option.map_some, Option.getD_some]
    rw [hfile]
    rw [hbytes]
    simp [utf8Decode_ascii hva]

/-- A write event as the engine performs it: the Python string used as
the keydir key, paired with the record actually appended to the file.  For
a `set(key, value)` the record's key bytes are the UTF-8 encoding of `key`
truncated or zero-padded by `struct.pack` to `len(key)` bytes, so they are
of length `len(key)` but equal `key` itself only when `key` is ASCII. -/
abbrev WriteLog := List (PyStr × Record)

/-- The log file content produced by a list of writes. -/
def fileOfW (ws : WriteLog) : List Nat := fileOf (ws.map Prod.snd)

/-- A write whose record has 32-bit sizes, whose stored key-byte count is
the key's character count (always true of what `set` writes), and whose
value is ASCII. -/
def GoodWrite (w : PyStr × Record) : Prop :=
  SizesOk w.2 ∧ w.2.kb.length = w.1.length ∧ (∀ b ∈ w.2.vb, b < 128)

instance (w : PyStr × Record) : Decidable (GoodWrite w) := by
  unfold GoodWrite
  infer_instance

/-- The keydir built from a write log: like `buildIndex`, but the entry is
stored under the write's Python-string key rather than the record's key
bytes (the two coincide for ASCII keys). -/
def buildIndexW (fid : String) : WriteLog → Nat → List (PyStr × Entry) → List (PyStr × Entry)
  | [], _, kd => kd
  | (k, r) :: rest, off, kd =>
    buildIndexW fid rest (off + 12 + r.kb.length + r.vb.length)
      (upsertEntry kd k ⟨fid, r.vb.length, off + 12 + r.kb.length, r.t⟩)

/-- The LAST write of the log whose key is `k`, with its record's start
offset when the records are laid out consecutively from `off`. -/
def findLastWriteWithPos : WriteLog → Nat → PyStr → Option (Record × Nat)
  | [], _, _ => none
  | (k', r) :: rest, off, k =>
    match findLastWriteWithPos rest (off + 12 + r.kb.length + r.vb.length) k with
    | some x => some x
    | none => if k' = k then some (r, off) else none

theorem fileOfW_cons (w : PyStr × Record) (rest : WriteLog) :
    fileOfW (w :: rest) = w.2.bytes ++ fileOfW rest := rfl

theorem fileOfW_append (a b : WriteLog) : fileOfW (a ++ b) = fileOfW a ++ fileOfW b := by
  simp [fileOfW, fileOf_append]

theorem map_snd_tagRecords : ∀ rs : List Record,
    (rs.map (fun r => (r.kb, r))).map Prod.snd = rs
  | [] => rfl
  | r :: rest => by simp [map_snd_tagRecords rest]

theorem buildIndexW_tagRecords (fid : String) :
    ∀ (rs : List Record) (off : Nat) (kd : List (PyStr × Entry)),
      buildIndexW fid (rs.map (fun r => (r.kb, r))) off kd = buildIndex fid rs off kd
  | [], _, _ => rfl
  | r :: rest, off, kd => by
    simp only [List.map_cons, buildIndexW, buildIndex]
    exact buildIndexW_tagRecords fid rest _ _

theorem lookup_buildIndexW (fid : String) :
    ∀ (ws : WriteLog) (off : Nat) (kd : List (PyStr × Entry)) (k : PyStr),
    lookupEntry (buildIndexW fid ws off kd) k =
      match findLastWriteWithPos ws off k with
      | some (r, roff) => some ⟨fid, r.vb.length, roff + 12 + r.kb.length, r.t⟩
      | none => lookupEntry kd k
  | [], off, kd, k => rfl
  | (k', r) :: rest, off, kd, k => by
    simp only [buildIndexW, findLastWriteWithPos]
    rw [lookup_buildIndexW fid rest _ _ k]
    rcases hf : findLastWriteWithPos rest (off + 12 + r.kb.length + r.vb.length) k
      with _ | ⟨r2, roff2⟩
    · rw [lookup_upsert]
      by_cases hk : k' = k <;> simp [hk]
    · simp

theorem findLastW_bytes :
    ∀ (ws : WriteLog) (pre : List Nat) (k : PyStr) (r : Record) (roff : Nat),
      findLastWriteWithPos ws pre.length k = some (r, roff) →
      ((pre ++ fileOfW ws).drop (roff + 12 + r.kb.length)).take r.vb.length = r.vb
  | [], pre, k, r, roff, h => by cases h
  | (k0, r0) :: rest, pre, k, r, roff, h => by
    simp only [findLastWriteWithPos] at h
    rcases hf : findLastWriteWithPos rest (pre.length + 12 + r0.kb.length + r0.vb.length) k
      with _ | ⟨r2, roff2⟩ <;> rw [hf] at h
    · by_cases hk : k0 = k
      · rw [if_pos hk] at h
        cases h
        rw [fileOfW_cons]
        have hsplit : pre ++ (r0.bytes ++ fileOfW rest)
            = (pre ++ (le32 r0.t ++ le32 r0.kb.length ++ le32 r0.vb.length ++ r0.kb))
              ++ (r0.vb ++ fileOfW rest) := by
          simp [Record.bytes, List.append_assoc]
        rw [hsplit,
          drop_append_exact _ (by simp [le32]; omega),
          take_append_exact _ rfl]
      · rw [if_neg hk] at h
        cases h
    · cases h
      have hlen : (pre ++ r0.bytes).length = pre.length + 12 + r0.kb.length + r0.vb.length := by
        simp [Record.bytes_length]
        omega
      have hrec := findLastW_bytes rest (pre ++ r0.bytes) k r roff (by rw [hlen]; exact hf)
      rw [fileOfW_cons]
      have hassoc : (pre ++ r0.bytes) ++ fileOfW rest = pre ++ (r0.bytes ++ fileOfW rest) := by
        simp [List.append_assoc]
      rw [hassoc] at hrec
      exact hrec

theorem findLastW_mem :
    ∀ (ws : WriteLog) (off : Nat) (k : PyStr) (r : Record) (roff : Nat),
      findLastWriteWithPos ws off k = some (r, roff) → ∃ w ∈ ws, w.1 = k ∧ w.2 = r
  | [], _, _, _, _, h => by cases h
  | (k0, r0) :: rest, off, k, r, roff, h => by
    simp only [findLastWriteWithPos] at h
    rcases hf : findLastWriteWithPos rest (off + 12 + r0.kb.length + r0.vb.length) k
      with _ | ⟨r2, roff2⟩ <;> rw [hf] at h
    · by_cases hk : k0 = k
      · rw [if_pos hk] at h
        cases h
        exact ⟨(k0, r0), by simp, hk, rfl⟩
      · rw [if_neg hk] at h
        cases h
    · cases h
      obtain ⟨w, hw, hwk, hwr⟩ := findLastW_mem rest _ k r roff hf
      exact ⟨w, by simp [hw], hwk, hwr⟩

/-- Correspondence between an engine state and its write log: every write
has an ASCII value and a key-byte count equal to its key's character
count, the file is the concatenation of the written records, and the
keydir is what replay or the `set` calls built from them. -/
def GoodStateW (s : DiskStorage) (ws : WriteLog) : Prop :=
  (∀ w ∈ ws, GoodWrite w) ∧ s.file = fileOfW ws ∧
    s.keydir = buildIndexW s.file_id ws 0 []

/-- Engine states reachable by construction-time replay over a log file of
well-formed ASCII records followed by any sequence of successful `set`
calls with ASCII VALUES — the keys are unrestricted (any UTF-8-encodable
Python string; `set` success already forces `len(key) < 2^32`).  `get`
does not change the state. -/
inductive ReachableVA : DiskStorage → WriteLog → Prop
  | boot (fid : String) (rs : List Record) (s : DiskStorage) :
      (∀ r ∈ rs, GoodRec r) → DiskStorage.init fid (fileOf rs) = some s →
      ReachableVA s (rs.map (fun r => (r.kb, r)))
  | step (s : DiskStorage) (ws : WriteLog) (now : Nat) (key value : PyStr)
      (kbs : List Nat) (s' : DiskStorage) :
      ReachableVA s ws → (∀ c ∈ value, c < 128) → utf8Encode key = some kbs →
      s.set now key value = some s' →
      ReachableVA s' (ws ++ [(key, ⟨now, pack_s key.length kbs, value⟩)])

theorem buildIndexW_append (fid : String) :
    ∀ (ws : WriteLog) (k : PyStr) (r : Record) (off : Nat) (kd : List (PyStr × Entry)),
      buildIndexW fid (ws ++ [(k, r)]) off kd
        = upsertEntry (buildIndexW fid ws off kd) k
            ⟨fid, r.vb.length, off + (fileOfW ws).length + 12 + r.kb.length, r.t⟩
  | [], k, r, off, kd => by simp [buildIndexW, fileOfW, fileOf]
  | (k0, r0) :: rest, k, r, off, kd => by
    simp only [List.cons_append, buildIndexW, List.append_eq]
    rw [buildIndexW_append fid rest k r _ _]
    have hoff : off + 12 + r0.kb.length + r0.vb.length + (fileOfW rest).length
        = off + (fileOfW ((k0, r0) :: rest)).length := by
      simp [fileOfW_cons, Record.bytes_length] <;> omega
    rw [hoff]

theorem set_goodW {s : DiskStorage} {ws : WriteLog} {now : Nat} {key value : PyStr}
    {kbs : List Nat} {s' : DiskStorage} (hg : GoodStateW s ws)
    (hv : ∀ c ∈ value, c < 128) (hkbs : utf8Encode key = some kbs)
    (hset : s.set now key value = some s') :
    GoodStateW s' (ws ++ [(key, ⟨now, pack_s key.length kbs, value⟩)]) := by
  obtain ⟨hgood, hfile, hkd⟩ := hg
  unfold DiskStorage.set at hset
  rcases henc : encode_kv now key value with _ | ⟨n, kv⟩ <;> rw [henc] at hset
  · cases hset
  obtain ⟨ht, hklen, hvlen⟩ := encode_kv_some_bounds henc
  have hkv : kv = Record.bytes ⟨now, pack_s key.length kbs, value⟩ := by
    unfold encode_kv at henc
    rw [hkbs, utf8Encode_ascii hv] at henc
    unfold encode_header at henc
    rw [if_pos ⟨ht, hklen, hvlen⟩] at henc
    have h2 : le32 now ++ le32 key.length ++ le32 value.length
        ++ pack_s key.length kbs ++ pack_s value.length value = kv :=
      congrArg Prod.snd (Option.some.inj henc)
    rw [← h2, pack_s_exact (rfl : value.length = value.length)]
    show le32 now ++ le32 key.length ++ le32 value.length ++ pack_s key.length kbs ++ value
      = le32 now ++ le32 (pack_s key.length kbs).length ++ le32 value.length
        ++ pack_s key.length kbs ++ value
    rw [pack_s_length]
  subst hkv
  cases hset
  refine ⟨?_, ?_, ?_⟩
  · intro w hw
    rcases List.mem_append.mp hw with h1 | h2
    · exact hgood w h1
    · simp at h2
      subst h2
      refine ⟨⟨ht, ?_, hvlen⟩, ?_, hv⟩
      · show (pack_s key.length kbs).length < 4294967296
        rw [pack_s_length]
        exact hklen
      · exact pack_s_length key.length kbs
  · show s.file ++ Record.bytes ⟨now, pack_s key.length kbs, value⟩
      = fileOfW (ws ++ [(key, ⟨now, pack_s key.length kbs, value⟩)])
    rw [hfile, fileOfW_append]
    simp [fileOfW, fileOf]
  · show upsertEntry s.keydir key ⟨s.file_id, value.length,
        (s.file ++ Record.bytes ⟨now, pack_s key.length kbs, value⟩).length - value.length, now⟩
      = buildIndexW s.file_id (ws ++ [(key, ⟨now, pack_s key.length kbs, value⟩)]) 0 []
    rw [buildIndexW_append, hkd, hfile]
    congr 1
    have hp : (fileOfW ws ++ Record.bytes ⟨now, pack_s key.length kbs, value⟩).length
        - value.length = 0 + (fileOfW ws).length + 12 + key.length := by
      simp [Record.bytes_length, pack_s_length] <;> omega
    rw [hp]
    show Entry.mk s.file_id value.length (0 + (fileOfW ws).length + 12 + key.length) now
      = Entry.mk s.file_id value.length
          (0 + (fileOfW ws).length + 12 + (pack_s key.length kbs).length) now
    rw [pack_s_length]

theorem reachableVA_goodState {s : DiskStorage} {ws : WriteLog}
    (h : ReachableVA s ws) : GoodStateW s ws := by
  induction h with
  | boot fid rs s hgood hinit =>
    rw [init_good fid hgood] at hinit
    cases hinit
    refine ⟨?_, ?_, ?_⟩
    · intro w hw
      simp [List.mem_map] at hw
      obtain ⟨r, hr, rfl⟩ := hw
      obtain ⟨hsz, hka, hva⟩ := hgood r hr
      exact ⟨hsz, rfl, hva⟩
    · show fileOf rs = fileOfW (rs.map (fun r => (r.kb, r)))
      rw [fileOfW, map_snd_tagRecords]
    · show buildIndex fid rs 0 [] = buildIndexW fid (rs.map (fun r => (r.kb, r))) 0 []
      rw [buildIndexW_tagRecords]
  | step s ws now key value kbs s' hre hv hkbs hset ih =>
    exact set_goodW ih hv hkbs hset

theorem get_goodStateW {s : DiskStorage} {ws : WriteLog} (hg : GoodStateW s ws) (k : PyStr) :
    s.get k = some (((findLastWriteWithPos ws 0 k).map (fun x => x.1.vb)).getD []) := by
  obtain ⟨hgood, hfile, hkd⟩ := hg
  unfold DiskStorage.get
  rw [hkd, lookup_buildIndexW]
  rcases hf : findLastWriteWithPos ws 0 k with _ | ⟨r, roff⟩
  · simp [lookupEntry]
  · obtain ⟨w, hw, hwk, hwr⟩ := findLastW_mem ws 0 k r roff hf
    obtain ⟨_, _, hva⟩ := hgood w hw
    rw [hwr] at hva
    have hbytes := findLastW_bytes ws [] k r roff hf
    simp only [List.nil_append] at hbytes
    simp only [Option.map_some, Option.getD_some]
    rw [hfile, hbytes]
    simp [utf8Decode_ascii hva]

/-- C2 (amended): in every engine state reachable by construction-time
replay over a log of well-formed ASCII records followed by any sequence of
successful `set` calls with ASCII VALUES — the keys unrestricted — every
key in the keydir points (via `value_pos`/`value_sz` inside the file named
by its `file_id`, the engine's one file) at exactly the value bytes of the
most recent write for that key — the value most recently set — and `get`
returns that value.  The keys need no restriction because `set` truncates
only the KEY bytes on disk while `value_pos` always addresses the last
`len(value)` appended bytes; a non-ASCII VALUE, however, is stored
truncated and `get` raises (see the counterexample). -/
theorem c2_index_points_at_latest (s : DiskStorage) (ws : WriteLog) (k : PyStr) (e : Entry)
    (hre : ReachableVA s ws) (hk : lookupEntry s.keydir k = some e) :
    e.file_id = s.file_id ∧
    ∃ r roff, findLastWriteWithPos ws 0 k = some (r, roff) ∧
      e.value_sz = r.vb.length ∧ e.value_pos = roff + 12 + r.kb.length ∧
      (s.file.drop e.value_pos).take e.value_sz = r.vb ∧
      s.get k = some r.vb := by
  obtain ⟨hgood, hfile, hkd⟩ := reachableVA_goodState hre
  rw [hkd, lookup_buildIndexW] at hk
  rcases hf : findLastWriteWithPos ws 0 k with _ | ⟨r, roff⟩ <;> rw [hf] at hk
  · cases hk
  · simp only [] at hk
    cases hk
    have hbytes := findLastW_bytes ws [] k r roff hf
    simp only [List.nil_append] at hbytes
    refine ⟨rfl, r, roff, rfl, rfl, rfl, ?_, ?_⟩
    · rw [hfile]
      exact hbytes
    · rw [get_goodStateW ⟨hgood, hfile, hkd⟩ k, hf]
      simp

/-- C2 witness: after booting on the empty file and one `set` with the
NON-ASCII key "é" (code 233) and the ASCII value "hi", the key's entry
points at exactly the value bytes and `get` returns the value — only the
key bytes are truncated on disk. -/
theorem c2_index_points_at_latest_witness :
    DiskStorage.get ⟨"data.db", [7, 0, 0, 0, 1, 0, 0, 0, 2, 0, 0, 0, 195, 104, 105],
      [([233], ⟨"data.db", 2, 13, 7⟩)]⟩ [233] = some [104, 105] := by
  have hre : ReachableVA
      ⟨"data.db", [7, 0, 0, 0, 1, 0, 0, 0, 2, 0, 0, 0, 195, 104, 105],
        [([233], ⟨"data.db", 2, 13, 7⟩)]⟩
      (([] : List Record).map (fun r => (r.kb, r))
        ++ [([233], ⟨7, pack_s 1 [195, 169], [104, 105]⟩)]) :=
    ReachableVA.step ⟨"data.db", [], []⟩ _ 7 [233] [104, 105] [195, 169] _
      (ReachableVA.boot "data.db" [] ⟨"data.db", [], []⟩ (by simp) (init_nil "data.db"))
      (by decide) (by decide) (by decide)
  obtain ⟨-, r, roff, hf, -, -, -, hget⟩ :=
    c2_index_points_at_latest _ _ [233] ⟨"data.db", 2, 13, 7⟩ hre (by decide)
  have heq := hf.symm.trans
    (by decide : findLastWriteWithPos
      (([] : List Record).map (fun r => (r.kb, r))
        ++ [([233], ⟨7, pack_s 1 [195, 169], [104, 105]⟩)]) 0 [233]
      = some (⟨7, [195], [104, 105]⟩, 0))
  have h1 : r = ⟨7, [195], [104, 105]⟩ := congrArg Prod.fst (Option.some.inj heq)
  rw [h1] at hget
  exact hget

/-- C3 (amended): for ASCII keys and values, after `set(k, v1)` then
`set(k, v2)` on any ASCII-reachable engine, `get(k)` returns `v2`, and
constructing a fresh engine on the resulting log file succeeds (replay
rebuilds the index, later records unconditionally replacing earlier index
entries for the same key) and also yields `get(k) = v2`.  With a non-ASCII
`v2` the code instead raises on `get` (see the counterexample). -/
theorem c3_last_write_wins (s : DiskStorage) (rs : List Record) (k v1 v2 : PyStr)
    (t1 t2 : Nat) (s1 s2 : DiskStorage) (hre : ReachableAscii s rs)
    (hk : ∀ c ∈ k, c < 128) (hv1 : ∀ c ∈ v1, c < 128) (hv2 : ∀ c ∈ v2, c < 128)
    (hset1 : s.set t1 k v1 = some s1) (hset2 : s1.set t2 k v2 = some s2) :
    s2.get k = some v2 ∧
    Option.map (fun s3 => DiskStorage.get s3 k) (DiskStorage.init s2.file_id s2.file)
      = some (some v2) := by
  have hre2 : ReachableAscii s2 ((rs ++ [⟨t1, k, v1⟩]) ++ [⟨t2, k, v2⟩]) :=
    ReachableAscii.step _ _ _ _ _ _
      (ReachableAscii.step _ _ _ _ _ _ hre hk hv1 hset1) hk hv2 hset2
  obtain ⟨hgood2, hfile2, hkd2⟩ := reachable_goodState hre2
  have hflast := findLast_append_last (rs ++ [⟨t1, k, v1⟩]) 0 k ⟨t2, k, v2⟩ rfl
  have hget2 : s2.get k = some v2 := by
    rw [get_goodState ⟨hgood2, hfile2, hkd2⟩ k, hflast]
    simp
  refine ⟨hget2, ?_⟩
  rw [hfile2, init_good s2.file_id hgood2]
  have hg3 : GoodState ⟨s2.file_id, fileOf ((rs ++ [⟨t1, k, v1⟩]) ++ [⟨t2, k, v2⟩]),
      buildIndex s2.file_id ((rs ++ [⟨t1, k, v1⟩]) ++ [⟨t2, k, v2⟩]) 0 []⟩
      ((rs ++ [⟨t1, k, v1⟩]) ++ [⟨t2, k, v2⟩]) := ⟨hgood2, rfl, rfl⟩
  show some (DiskStorage.get ⟨s2.file_id,
      fileOf ((rs ++ [⟨t1, k, v1⟩]) ++ [⟨t2, k, v2⟩]),
      buildIndex s2.file_id ((rs ++ [⟨t1, k, v1⟩]) ++ [⟨t2, k, v2⟩]) 0 []⟩ k)
    = some (some v2)
  rw [get_goodState hg3 k, hflast]
  simp

/-- C3 witness: two writes to the same key on a freshly booted empty
engine; `get` returns the second value. -/
theorem c3_last_write_wins_witness :
    DiskStorage.get ⟨"data.db",
      [1, 0, 0, 0, 1, 0, 0, 0, 1, 0, 0, 0, 107, 97,
       2, 0, 0, 0, 1, 0, 0, 0, 1, 0, 0, 0, 107, 98],
      [([107], ⟨"data.db", 1, 27, 2⟩)]⟩ [107] = some [98] :=
  (c3_last_write_wins ⟨"data.db", [], []⟩ [] [107] [97] [98] 1 2
    ⟨"data.db", [1, 0, 0, 0, 1, 0, 0, 0, 1, 0, 0, 0, 107, 97],
      [([107], ⟨"data.db", 1, 13, 1⟩)]⟩
    ⟨"data.db",
      [1, 0, 0, 0, 1, 0, 0, 0, 1, 0, 0, 0, 107, 97,
       2, 0, 0, 0, 1, 0, 0, 0, 1, 0, 0, 0, 107, 98],
      [([107], ⟨"data.db", 1, 27, 2⟩)]⟩
    (ReachableAscii.boot "data.db" [] ⟨"data.db", [], []⟩ (by simp) (init_nil "data.db"))
    (by decide) (by decide) (by decide) (by decide) (by decide)).1

/-- C10 (amended): for every ASCII value `v` (and a timestamp and length
below 2^32, which `struct.pack` requires), `set("", v)` succeeds on any
ASCII-reachable engine, appending a record whose header declares
`key_size = 0`, and the subsequent `get("")` returns `v`: neither the
codec nor the engine rejects the empty key.  With a non-ASCII `v` the
`set` still succeeds but `get("")` raises (see the counterexample). -/
theorem c10_empty_key_accepted (s : DiskStorage) (rs : List Record) (v : PyStr) (now : Nat)
    (hre : ReachableAscii s rs) (hv : ∀ c ∈ v, c < 128)
    (hnow : now < 4294967296) (hvlen : v.length < 4294967296) :
    ∃ s', s.set now [] v = some s' ∧
      s'.file = s.file ++ (le32 now ++ le32 0 ++ le32 v.length ++ v) ∧
      s'.get [] = some v := by
  have henc := encode_kv_ascii hnow
    (show ([] : PyStr).length < 4294967296 by norm_num) hvlen
    (show ∀ c ∈ ([] : PyStr), c < 128 by simp) hv
  have hset : s.set now [] v = some ⟨s.file_id,
      s.file ++ Record.bytes ⟨now, [], v⟩,
      upsertEntry s.keydir []
        ⟨s.file_id, v.length,
          (s.file ++ Record.bytes ⟨now, [], v⟩).length - v.length, now⟩⟩ := by
    unfold DiskStorage.set
    rw [henc]
  have hre2 : ReachableAscii _ (rs ++ [⟨now, [], v⟩]) :=
    ReachableAscii.step _ _ _ _ _ _ hre (by simp) hv hset
  refine ⟨_, hset, ?_, ?_⟩
  · show s.file ++ Record.bytes ⟨now, [], v⟩
      = s.file ++ (le32 now ++ le32 0 ++ le32 v.length ++ v)
    simp [Record.bytes]
  · rw [get_goodState (reachable_goodState hre2) [],
      findLast_append_last rs 0 [] ⟨now, [], v⟩ rfl]
    simp

/-- C10 witness: `set("", "v")` then `get("")` on a freshly booted empty
engine. -/
theorem c10_empty_key_accepted_witness :
    DiskStorage.get ⟨"data.db", [3, 0, 0, 0, 0, 0, 0, 0, 1, 0, 0, 0, 118],
      [([], ⟨"data.db", 1, 12, 3⟩)]⟩ [] = some [118] := by
  obtain ⟨s', hset, -, hget⟩ :=
    c10_empty_key_accepted ⟨"data.db", [], []⟩ [] [118] 3
      (ReachableAscii.boot "data.db" [] ⟨"data.db", [], []⟩ (by simp) (init_nil "data.db"))
      (by decide) (by norm_num) (by norm_num)
  have hs' : s' = ⟨"data.db", [3, 0, 0, 0, 0, 0, 0, 0, 1, 0, 0, 0, 118],
      [([], ⟨"data.db", 1, 12, 3⟩)]⟩ :=
    Option.some.inj (hset.symm.trans (by decide))
  rw [hs'] at hget
  exact hget

/-- A successful `decode_kv` consumed a buffer at least as long as 12 plus
the decoded character counts (UTF-8 decoding never yields more characters
than bytes). -/
theorem decode_kv_length {data : List Nat} {t : Nat} {k v : PyStr}
    (h : decode_kv data = some (t, k, v)) :
    12 + k.length + v.length ≤ data.length := by
  unfold decode_kv at h
  rcases hh : decode_header (data.take 12) with _ | ⟨t', ks, vs⟩ <;> rw [hh] at h
  · cases h
  have h12 : (data.take 12).length = 12 := by
    unfold decode_header at hh
    split at hh
    · assumption
    · cases hh
  have hdlen : 12 ≤ data.length := by
    simp [List.length_take] at h12
    omega
  simp only [] at h
  split at h
  · rcases hk : utf8Decode ((data.drop 12).take ks) with _ | k' <;> rw [hk] at h
    · cases h
    rcases hv : utf8Decode ((data.drop 12).drop ks) with _ | v' <;> rw [hv] at h
    · cases h
    cases h
    have hk1 := utf8Decode_length_le _ _ hk
    have hv1 := utf8Decode_length_le _ _ hv
    rename_i hlen
    simp [List.length_take, List.length_drop] at hk1 hv1 hlen
    omega
  · cases h

/-- Every keydir entry addresses a byte range inside the file. -/
def EntriesBounded (kd : List (PyStr × Entry)) (len : Nat) : Prop :=
  ∀ k e, lookupEntry kd k = some e → e.value_pos + e.value_sz ≤ len

theorem replayTrace_bounded (file : List Nat) (fid : String) :
    ∀ (fuel off : Nat) (kd kd' : List (PyStr × Entry)),
      file.length - off ≤ fuel →
      EntriesBounded kd file.length →
      (replayTrace file fid off kd).2 = some kd' →
      EntriesBounded kd' file.length := by
  intro fuel
  induction fuel with
  | zero =>
    intro off kd kd' hfuel hkd hres
    rw [replayTrace_stop (by omega)] at hres
    cases hres
    exact hkd
  | succ m ih =>
    intro off kd kd' hfuel hkd hres
    by_cases hlt : off < file.length
    · rw [replayTrace.eq_def, dif_pos hlt] at hres
      rcases hh : decode_header ((file.drop off).take 12) with _ | ⟨t, ks, vs⟩ <;>
        rw [hh] at hres
      · cases hres
      simp only [] at hres
      rcases hk : decode_kv ((file.drop off).take (12 + ks + vs)) with _ | ⟨t', key, value⟩ <;>
        rw [hk] at hres
      · cases hres
      simp only [] at hres
      have hrange : off + 12 + key.length + value.length ≤ file.length := by
        have h1 := decode_kv_length hk
        have h2 : ((file.drop off).take (12 + ks + vs)).length ≤ file.length - off := by
          simp [List.length_take, List.length_drop] <;> omega
        omega
      refine ih (off + 12 + key.length + value.length) _ kd' (by omega) ?_ hres
      intro k e hle
      rw [lookup_upsert] at hle
      by_cases hkk : key = k
      · rw [if_pos hkk] at hle
        cases hle
        simp
        omega
      · rw [if_neg hkk] at hle
        exact hkd k e hle
    · rw [replayTrace_stop hlt] at hres
      cases hres
      exact hkd

/-- Engine states reachable by construction (on any file content) followed
by any sequence of successful `set` calls. -/
inductive Reaches : DiskStorage → Prop
  | boot (fid : String) (file : List Nat) (s : DiskStorage) :
      DiskStorage.init fid file = some s → Reaches s
  | step (s : DiskStorage) (now : Nat) (key value : PyStr) (s' : DiskStorage) :
      Reaches s → s.set now key value = some s' → Reaches s'

theorem reaches_bounded {s : DiskStorage} (h : Reaches s) :
    EntriesBounded s.keydir s.file.length := by
  induction h with
  | boot fid file s hinit =>
    unfold DiskStorage.init at hinit
    rcases hres : (replayTrace file fid 0 []).2 with _ | kd <;> rw [hres] at hinit
    · cases hinit
    cases hinit
    exact replayTrace_bounded file fid file.length 0 [] kd (by omega)
      (fun k e hle => nomatch hle) hres
  | step s now key value s' hre hset ih =>
    unfold DiskStorage.set at hset
    rcases henc : encode_kv now key value with _ | ⟨n, kv⟩ <;> rw [henc] at hset
    · cases hset
    obtain ⟨-, hkvlen⟩ := encode_kv_some_length henc
    cases hset
    intro k e hle
    simp only [] at hle
    rw [lookup_upsert] at hle
    by_cases hkk : key = k
    · rw [if_pos hkk] at hle
      cases hle
      simp [List.length_append, hkvlen]
      omega
    · rw [if_neg hkk] at hle
      have := ih k e hle
      simp [List.length_append]
      omega

theorem drop_append_le {α : Type} :
    ∀ (l ext : List α) (pos : Nat), pos ≤ l.length →
      (l ++ ext).drop pos = l.drop pos ++ ext
  | _, _, 0, _ => by simp
  | [], _, pos + 1, h => by simp at h
  | a :: t, ext, pos + 1, h => by
    simp only [List.cons_append, List.drop_succ_cons]
    exact drop_append_le t ext pos (by simpa using h)

theorem take_append_le {α : Type} :
    ∀ (l ext : List α) (sz : Nat), sz ≤ l.length →
      (l ++ ext).take sz = l.take sz
  | _, _, 0, _ => by simp
  | [], _, sz + 1, h => by simp at h
  | a :: t, ext, sz + 1, h => by
    simp only [List.cons_append, List.take_succ_cons]
    rw [take_append_le t ext sz (by simpa using h)]

/-- Appending bytes to the file does not change any read whose byte range
lies inside the original file. -/
theorem drop_take_append {α : Type} {l ext : List α} {pos sz : Nat}
    (h : pos + sz ≤ l.length) :
    ((l ++ ext).drop pos).take sz = (l.drop pos).take sz := by
  rw [drop_append_le l ext pos (by omega)]
  rw [take_append_le (l.drop pos) ext sz (by simp [List.length_drop]; omega)]

/-- C8: on any reachable engine state, a `set(k1, v)` leaves the index
entry of every other key `k2` (all four fields) unchanged, and a `get(k2)`
after the call returns exactly what it returned before — the appended
record cannot disturb ranges that lie inside the old file, which the
reachability invariant guarantees. -/
theorem c8_set_frames_other_keys (s : DiskStorage) (now : Nat) (k1 v k2 : PyStr)
    (s' : DiskStorage) (hre : Reaches s) (hne : k1 ≠ k2)
    (hset : s.set now k1 v = some s') :
    lookupEntry s'.keydir k2 = lookupEntry s.keydir k2 ∧ s'.get k2 = s.get k2 := by
  have hbound := reaches_bounded hre
  unfold DiskStorage.set at hset
  rcases henc : encode_kv now k1 v with _ | ⟨n, kv⟩ <;> rw [henc] at hset
  · cases hset
  cases hset
  have hlk : lookupEntry (upsertEntry s.keydir k1
      ⟨s.file_id, v.length, (s.file ++ kv).length - v.length, now⟩) k2
      = lookupEntry s.keydir k2 := by
    rw [lookup_upsert, if_neg hne]
  refine ⟨hlk, ?_⟩
  show (match lookupEntry (upsertEntry s.keydir k1
      ⟨s.file_id, v.length, (s.file ++ kv).length - v.length, now⟩) k2 with
    | none => some []
    | some metadata =>
      if (((s.file ++ kv).drop metadata.value_pos).take metadata.value_sz).length
          = metadata.value_sz then
        utf8Decode (((s.file ++ kv).drop metadata.value_pos).take metadata.value_sz)
      else none) = DiskStorage.get s k2
  rw [hlk]
  unfold DiskStorage.get
  rcases hl2 : lookupEntry s.keydir k2 with _ | e
  · rfl
  · have hb := hbound k2 e hl2
    simp only []
    rw [drop_take_append hb]

/-- C8 witness: on an engine holding key "a" (97), a `set` of key "c" (99)
leaves the entry and the `get` result of "a" unchanged. -/
theorem c8_set_frames_other_keys_witness :
    lookupEntry (DiskStorage.mk "data.db"
        [5, 0, 0, 0, 1, 0, 0, 0, 1, 0, 0, 0, 97, 98,
         6, 0, 0, 0, 1, 0, 0, 0, 1, 0, 0, 0, 99, 100]
        [([97], ⟨"data.db", 1, 13, 5⟩), ([99], ⟨"data.db", 1, 27, 6⟩)]).keydir [97]
      = lookupEntry (DiskStorage.mk "data.db"
          [5, 0, 0, 0, 1, 0, 0, 0, 1, 0, 0, 0, 97, 98]
          [([97], ⟨"data.db", 1, 13, 5⟩)]).keydir [97] ∧
    DiskStorage.get (DiskStorage.mk "data.db"
        [5, 0, 0, 0, 1, 0, 0, 0, 1, 0, 0, 0, 97, 98,
         6, 0, 0, 0, 1, 0, 0, 0, 1, 0, 0, 0, 99, 100]
        [([97], ⟨"data.db", 1, 13, 5⟩), ([99], ⟨"data.db", 1, 27, 6⟩)]) [97]
      = DiskStorage.get (DiskStorage.mk "data.db"
          [5, 0, 0, 0, 1, 0, 0, 0, 1, 0, 0, 0, 97, 98]
          [([97], ⟨"data.db", 1, 13, 5⟩)]) [97] :=
  c8_set_frames_other_keys
    (DiskStorage.mk "data.db" [5, 0, 0, 0, 1, 0, 0, 0, 1, 0, 0, 0, 97, 98]
      [([97], ⟨"data.db", 1, 13, 5⟩)]) 6 [99] [100] [97]
    (DiskStorage.mk "data.db"
      [5, 0, 0, 0, 1, 0, 0, 0, 1, 0, 0, 0, 97, 98,
       6, 0, 0, 0, 1, 0, 0, 0, 1, 0, 0, 0, 99, 100]
      [([97], ⟨"data.db", 1, 13, 5⟩), ([99], ⟨"data.db", 1, 27, 6⟩)])
    (Reaches.step ⟨"data.db", [], []⟩ 5 [97] [98] _
      (Reaches.boot "data.db" [] ⟨"data.db", [], []⟩ (init_nil "data.db")) (by decide))
    (by decide) (by decide)
